import Mathlib

set_option maxRecDepth 8192

/-!
Verification development for the scenecut scene-change detector.

The detector pipeline (TypeScript driver + C/WASM analysis kernel) is
shallowly embedded here:

* `src/utils/frame-processor.ts` — `formatTimecode`, `validateFrameDimensions`,
  `validateFrame`, `calculateFcode`, `calculateThresholds`, `calculateMBParam`;
* `src/wasm/wasm-interface.c` — `pad_frame` (edge-replicating plane padding);
* `src/detection/wasm-bridge.ts` — `detectSceneChange` (the WASM kernel
  `MEanalysis_js`, whose C source `detection.c` is outside the repository
  snapshot, is abstracted as a pure oracle parameter `me`);
* `src/detection/detector.ts` — the `SceneDetector.detect` driver loop;
* `src/decoder/ffmpeg-decoder.ts` — the internal `RingBuffer`;
* `src/utils/buffer-pool.ts` — `BufferPool`.

JavaScript numbers holding frame dimensions are modelled as `Int` (they are
compared against `0` and `8192`), timestamps as `ℚ`, pixel bytes as `Nat`,
and `Uint8Array` contents as `List Nat`.  The C `pad_frame` works on
`uint32_t` sizes; within the validated range (dimensions at most 8192) no
32-bit overflow can occur, so its arithmetic is modelled on `Nat`.
-/

namespace Scenecut

/-- Sensitivity levels accepted by the detector options. -/
inductive SensitivityLevel where
  | low | medium | high | custom
deriving DecidableEq, Repr

/-- Motion-search range option. -/
inductive SearchRange where
  | auto | small | medium | large
deriving DecidableEq, Repr

/-- Custom threshold pair from the options (types/index.ts). -/
structure CustomThresholds where
  intraThresh : Int
  intraThresh2 : Int
deriving DecidableEq, Repr

/-- Raw decoded frame (types/index.ts `RawFrame`): grayscale plane bytes,
dimensions, presentation timestamp in seconds and 0-indexed frame number. -/
structure RawFrame where
  data : List Nat
  width : Int
  height : Int
  stride : Int
  pts : ℚ
  frameNumber : Nat
deriving DecidableEq, Repr

/-- One emitted scene cut (types/index.ts `SceneInfo`). -/
structure SceneInfo where
  frameNumber : Nat
  timestamp : ℚ
  timecode : String
deriving DecidableEq, Repr

/-- Video metadata reported by the decoder (types/index.ts `VideoMetadata`). -/
structure VideoMetadata where
  totalFrames : Nat
  duration : ℚ
  fps : ℚ
  width : Int
  height : Int
deriving DecidableEq, Repr

/-- Detection options relevant to the `scenes` output (types/index.ts
`DetectionOptions`; callbacks and extraction tuning are omitted because the
driver's scene list does not read them). -/
structure DetectionOptions where
  sensitivity : SensitivityLevel
  customThresholds : CustomThresholds
  searchRange : SearchRange
deriving DecidableEq, Repr

/-- Mutable detector state (types/index.ts `DetectionState`). -/
structure DetectionState where
  intraCount : Nat
  fcode : Int
  prevFrame : Option RawFrame
  curFrame : Option RawFrame
deriving DecidableEq, Repr

/-! ## frame-processor.ts utilities -/

/-- Left-pad the decimal form of a number with zeros to a given width,
as `String.padStart(width, '0')` does on the numbers in `formatTimecode`. -/
def padZero (w : Nat) (n : Nat) : String :=
  let s := toString n
  if s.length < w then String.mk (List.replicate (w - s.length) '0') ++ s else s

/-- Embedding of `formatTimecode` (frame-processor.ts): format a nonnegative
number of seconds as an HH:MM:SS.mmm timecode.  The JavaScript `%` and
`Math.floor` on nonnegative numbers are the rational mod and floor. -/
def formatTimecode (seconds : ℚ) : String :=
  let hours := (⌊seconds / 3600⌋).toNat
  let minutes := (⌊(seconds - 3600 * ⌊seconds / 3600⌋) / 60⌋).toNat
  let secs := (⌊seconds - 60 * ⌊seconds / 60⌋⌋).toNat
  let ms := (⌊(seconds - ⌊seconds⌋) * 1000⌋).toNat
  padZero 2 hours ++ ":" ++ padZero 2 minutes ++ ":" ++ padZero 2 secs ++
    "." ++ padZero 3 ms

/-- Embedding of `validateFrameDimensions` (frame-processor.ts): reject
non-positive or over-8192 dimensions, as an `Except` in place of a throw. -/
def validateFrameDimensions (width height : Int) : Except String Unit :=
  if width ≤ 0 ∨ height ≤ 0 then
    .error "Invalid frame dimensions"
  else if width > 8192 ∨ height > 8192 then
    .error "Frame dimensions too large"
  else
    .ok ()

/-- Embedding of `calculateFcode` (frame-processor.ts): map the search-range
option and the frame dimensions to the motion-search `fcode`. -/
def calculateFcode (searchRange : SearchRange) (width height : Int) : Int :=
  match searchRange with
  | .small => 2
  | .medium => 4
  | .large => 6
  | .auto =>
    let pixels := width * height
    if pixels ≤ 720 * 480 then 3
    else if pixels ≤ 1920 * 1080 then 4
    else 5

/-- Embedding of `calculateThresholds` (frame-processor.ts): map the
sensitivity level to the `(intraThresh, intraThresh2)` pair. -/
def calculateThresholds (sensitivity : SensitivityLevel) : CustomThresholds :=
  match sensitivity with
  | .low => ⟨3000, 150⟩
  | .medium => ⟨2000, 90⟩
  | .high => ⟨1000, 50⟩
  | .custom => ⟨2000, 90⟩

/-- Embedding of `validateFrame` (frame-processor.ts): empty-plane check,
then size check, then dimension check, in source order. -/
def validateFrame (frame : RawFrame) : Except String Unit :=
  if frame.data.length = 0 then
    .error "Frame data is empty"
  else if (frame.data.length : Int) < frame.width * frame.height then
    .error "Frame data size mismatch"
  else
    validateFrameDimensions frame.width frame.height

/-! ## wasm-interface.c : calculate_padded_size and pad_frame

The C code writes a flat `uint8_t` destination of `edged_width * edged_height`
bytes, always accessed at `y * edged_width + x` with `x < edged_width`; the
buffer is modelled as a function of the coordinates `(y, x)`, and each
sequential write loop as a pointwise override of the buffer built so far
(every loop reads only locations it does not write, so this is exact). -/

/-- Macroblock columns `(width + 15) / 16`, as in `pad_frame`. -/
def mb_width (width : Nat) : Nat := (width + 15) / 16

/-- Macroblock rows `(height + 15) / 16`, as in `pad_frame`. -/
def mb_height (height : Nat) : Nat := (height + 15) / 16

/-- Padded plane width `16 * mb_width + 2 * 64`. -/
def edged_width (width : Nat) : Nat := 16 * mb_width width + 2 * 64

/-- Padded plane height `16 * mb_height + 2 * 64`. -/
def edged_height (height : Nat) : Nat := 16 * mb_height height + 2 * 64

/-- Embedding of `calculate_padded_size` (wasm-interface.c). -/
def calculate_padded_size (width height : Nat) : Nat :=
  edged_width width * edged_height height

/-- The `memset(dst, 0, ...)` clearing pass of `pad_frame`. -/
def pad_clear : Nat → Nat → Nat := fun _ _ => 0

/-- The central copy pass of `pad_frame`: rows `[64, 64+height)`, columns
`[64, 64+width)` take the source pixel, the rest keeps the prior buffer. -/
def pad_copy (src : Nat → Nat) (width height : Nat) (d : Nat → Nat → Nat) :
    Nat → Nat → Nat :=
  fun y x =>
    if 64 ≤ y ∧ y < 64 + height ∧ 64 ≤ x ∧ x < 64 + width then
      src ((y - 64) * width + (x - 64))
    else d y x

/-- The right-edge macroblock-alignment pass of `pad_frame`: when
`width < 16 * mb_width`, columns `[64+width, 64+16*mb_width)` of each source
row replicate that row's last pixel. -/
def pad_right (src : Nat → Nat) (width height : Nat) (d : Nat → Nat → Nat) :
    Nat → Nat → Nat :=
  fun y x =>
    if width < 16 * mb_width width ∧ 64 ≤ y ∧ y < 64 + height ∧
        64 + width ≤ x ∧ x < 64 + 16 * mb_width width then
      src ((y - 64) * width + (width - 1))
    else d y x

/-- The bottom-edge macroblock-alignment pass of `pad_frame`: when
`height < 16 * mb_height`, rows `[64+height, 64+16*mb_height)` copy row
`64 + height - 1` over columns `[64, 64+16*mb_width)`. -/
def pad_bottom (width height : Nat) (d : Nat → Nat → Nat) : Nat → Nat → Nat :=
  fun y x =>
    if height < 16 * mb_height height ∧ 64 + height ≤ y ∧
        y < 64 + 16 * mb_height height ∧ 64 ≤ x ∧ x < 64 + 16 * mb_width width then
      d (64 + height - 1) x
    else d y x

/-- The top/bottom 64-row border pass of `pad_frame`: rows `[0, 64)` copy row
`64`; rows `[edged_height-64, edged_height)` copy row `edged_height-65`. -/
def pad_vert (height : Nat) (d : Nat → Nat → Nat) : Nat → Nat → Nat :=
  fun y x =>
    if y < 64 then d 64 x
    else if edged_height height - 64 ≤ y ∧ y < edged_height height then
      d (edged_height height - 1 - 64) x
    else d y x

/-- The left/right 64-column border pass of `pad_frame`: for each row,
columns `[0, 64)` replicate column `64` and columns
`[64+16*mb_width, edged_width)` replicate column `64+16*mb_width-1`. -/
def pad_horiz (width height : Nat) (d : Nat → Nat → Nat) : Nat → Nat → Nat :=
  fun y x =>
    if y < edged_height height ∧ x < 64 then d y 64
    else if y < edged_height height ∧ 64 + 16 * mb_width width ≤ x ∧
        x < edged_width width then
      d y (64 + 16 * mb_width width - 1)
    else d y x

/-- Embedding of `pad_frame` (wasm-interface.c): the six passes in source
order over the zeroed destination. -/
def pad_frame (src : Nat → Nat) (width height : Nat) : Nat → Nat → Nat :=
  pad_horiz width height
    (pad_vert height
      (pad_bottom width height
        (pad_right src width height
          (pad_copy src width height pad_clear))))

/-! ## wasm-bridge.ts and detector.ts -/

/-- Pure oracle standing for the WASM call made by
`WasmBridge.detectSceneChange`: copying both raw planes into the WASM heap,
padding them with `_pad_frame` and running `_MEanalysis_js` is, end to end, a
pure function of the raw plane bytes, the dimensions, `intraCount` and
`fcode` (the kernel `detection.c` is outside the repository snapshot, so the
theorems quantify over every such function). -/
def MEOracle : Type :=
  List Nat → List Nat → Int → Int → Nat → Int → Int

/-- Embedding of `WasmBridge.detectSceneChange` (wasm-bridge.ts): reject
mismatched frame dimensions with a thrown error, otherwise report whether
the WASM analysis returned `1`. -/
def detectSceneChange (me : MEOracle) (prevFrame curFrame : RawFrame)
    (intraCount : Nat) (fcode : Int) : Except String Bool :=
  if prevFrame.width ≠ curFrame.width ∨ prevFrame.height ≠ curFrame.height then
    .error "Frame dimensions must match"
  else
    .ok (me prevFrame.data curFrame.data prevFrame.width prevFrame.height
      intraCount fcode = 1)

/-- The seed entry pushed into `scenes` before any frame is processed
(detector.ts, lines 82-89). -/
def seedScene : SceneInfo := ⟨0, 0, "00:00:00.000"⟩

/-- Detector state as initialized by the `SceneDetector` constructor. -/
def freshState : DetectionState := ⟨1, 4, none, none⟩

/-- The per-frame loop of `SceneDetector.detect` (detector.ts, lines
96-136): validate the frame, run the verdict when a previous frame exists,
collect a `SceneInfo` on a cut and reset `intraCount`, else increment it;
any thrown error aborts the whole run (the decoder rejects on a callback
throw and the driver catches nothing). -/
def detectGo (me : MEOracle) (fcode : Int) (prev : Option RawFrame)
    (intraCount : Nat) : List RawFrame → Except String (List SceneInfo)
  | [] => .ok []
  | frame :: rest =>
    match validateFrame frame with
    | .error e => .error e
    | .ok _ =>
      match prev with
      | none => detectGo me fcode (some frame) intraCount rest
      | some p =>
        match detectSceneChange me p frame intraCount fcode with
        | .error e => .error e
        | .ok true =>
          match detectGo me fcode (some frame) 1 rest with
          | .error e => .error e
          | .ok scenes =>
            .ok (⟨frame.frameNumber, frame.pts, formatTimecode frame.pts⟩ :: scenes)
        | .ok false => detectGo me fcode (some frame) (intraCount + 1) rest

/-- Embedding of `SceneDetector.detect` from a given detector state: compute
`fcode` from the search range and the metadata resolution, seed the scene
list with `seedScene`, then run the frame loop over the decoded frames. -/
def detectFrom (me : MEOracle) (options : DetectionOptions)
    (metadata : VideoMetadata) (state : DetectionState)
    (frames : List RawFrame) : Except String (List SceneInfo) :=
  let fcode := calculateFcode options.searchRange metadata.width metadata.height
  match detectGo me fcode state.prevFrame state.intraCount frames with
  | .error e => .error e
  | .ok scenes => .ok (seedScene :: scenes)

/-- A full `detect` call on a freshly constructed `SceneDetector`. -/
def detect (me : MEOracle) (options : DetectionOptions)
    (metadata : VideoMetadata) (frames : List RawFrame) :
    Except String (List SceneInfo) :=
  detectFrom me options metadata freshState frames

/-- Observer for the verdict evaluations of the frame loop: the
`(previous, current)` frame pairs passed to `detectSceneChange`, in order,
up to the first thrown error.  Defined by the same recursion as `detectGo`. -/
def detectCallsGo (me : MEOracle) (fcode : Int) (prev : Option RawFrame)
    (intraCount : Nat) : List RawFrame → List (RawFrame × RawFrame)
  | [] => []
  | frame :: rest =>
    match validateFrame frame with
    | .error _ => []
    | .ok _ =>
      match prev with
      | none => detectCallsGo me fcode (some frame) intraCount rest
      | some p =>
        match detectSceneChange me p frame intraCount fcode with
        | .error _ => [(p, frame)]
        | .ok true => (p, frame) :: detectCallsGo me fcode (some frame) 1 rest
        | .ok false =>
          (p, frame) :: detectCallsGo me fcode (some frame) (intraCount + 1) rest

/-- Verdict evaluations performed by a full `detect` call. -/
def detectCalls (me : MEOracle) (options : DetectionOptions)
    (metadata : VideoMetadata) (frames : List RawFrame) :
    List (RawFrame × RawFrame) :=
  detectCallsGo me (calculateFcode options.searchRange metadata.width
    metadata.height) freshState.prevFrame freshState.intraCount frames

/-! ## ffmpeg-decoder.ts : RingBuffer -/

/-- State of the decoder's internal `RingBuffer` (ffmpeg-decoder.ts).  The
backing `Buffer.allocUnsafe(size)` is uninitialized, so the contents start
as an arbitrary function. -/
structure RingBuffer where
  buffer : Nat → Nat
  writePos : Nat
  readPos : Nat
  availableBytes : Nat
  capacity : Nat

/-- Construction of a `RingBuffer` of a given size over uninitialized
backing bytes. -/
def RingBuffer.mk' (size : Nat) (initial : Nat → Nat) : RingBuffer :=
  ⟨initial, 0, 0, 0, size⟩

/-- Embedding of `RingBuffer.write`: throw on overflow, otherwise copy the
chunk at `writePos`, splitting it when it wraps past the end, advance
`writePos` (wrapping an exact landing on `capacity` to `0`), and grow
`availableBytes`. -/
def RingBuffer.write (rb : RingBuffer) (chunk : List Nat) :
    Except String RingBuffer :=
  let chunkSize := chunk.length
  if rb.capacity - rb.availableBytes < chunkSize then
    .error "RingBuffer overflow: chunk too large for available space"
  else
    let endSpace := rb.capacity - rb.writePos
    if chunkSize ≤ endSpace then
      let buffer1 := fun i =>
        if rb.writePos ≤ i ∧ i < rb.writePos + chunkSize then
          chunk.getD (i - rb.writePos) 0
        else rb.buffer i
      let wp := rb.writePos + chunkSize
      .ok ⟨buffer1, if rb.capacity ≤ wp then 0 else wp, rb.readPos,
        rb.availableBytes + chunkSize, rb.capacity⟩
    else
      let buffer1 := fun i =>
        if rb.writePos ≤ i ∧ i < rb.writePos + endSpace then
          chunk.getD (i - rb.writePos) 0
        else rb.buffer i
      let buffer2 := fun i =>
        if i < chunkSize - endSpace then chunk.getD (endSpace + i) 0
        else buffer1 i
      let wp := chunkSize - endSpace
      .ok ⟨buffer2, if rb.capacity ≤ wp then 0 else wp, rb.readPos,
        rb.availableBytes + chunkSize, rb.capacity⟩

/-- Embedding of `RingBuffer.read`: throw on underflow, otherwise return
`size` bytes starting at `readPos`, splitting the copy when it wraps,
advance `readPos` (wrapping an exact landing on `capacity` to `0`) and
shrink `availableBytes`. -/
def RingBuffer.read (rb : RingBuffer) (size : Nat) :
    Except String (List Nat × RingBuffer) :=
  if rb.availableBytes < size then
    .error "RingBuffer underflow: not enough data available"
  else
    let endSpace := rb.capacity - rb.readPos
    if size ≤ endSpace then
      let result := (List.range size).map fun i => rb.buffer (rb.readPos + i)
      let rp := rb.readPos + size
      .ok (result, ⟨rb.buffer, rb.writePos, if rb.capacity ≤ rp then 0 else rp,
        rb.availableBytes - size, rb.capacity⟩)
    else
      let result :=
        ((List.range endSpace).map fun i => rb.buffer (rb.readPos + i)) ++
        ((List.range (size - endSpace)).map fun i => rb.buffer i)
      let rp := size - endSpace
      .ok (result, ⟨rb.buffer, rb.writePos, if rb.capacity ≤ rp then 0 else rp,
        rb.availableBytes - size, rb.capacity⟩)

/-- A client operation on the ring buffer: write one chunk or read one
byte count. -/
inductive RBOp where
  | writeOp (chunk : List Nat)
  | readOp (size : Nat)
deriving DecidableEq, Repr

/-- Run a sequence of ring-buffer operations, concatenating the bytes the
reads return; the first thrown error aborts the run. -/
def runRBOps (rb : RingBuffer) : List RBOp → Except String (List Nat × RingBuffer)
  | [] => .ok ([], rb)
  | .writeOp c :: rest =>
    match rb.write c with
    | .error e => .error e
    | .ok rb' => runRBOps rb' rest
  | .readOp n :: rest =>
    match rb.read n with
    | .error e => .error e
    | .ok (out, rb') =>
      match runRBOps rb' rest with
      | .error e => .error e
      | .ok (outs, rb'') => .ok (out ++ outs, rb'')

/-- Concatenation of all chunks written by an operation sequence. -/
def rbWritten : List RBOp → List Nat
  | [] => []
  | .writeOp c :: rest => c ++ rbWritten rest
  | .readOp _ :: rest => rbWritten rest

/-- Total byte count requested by the reads of an operation sequence. -/
def rbRequested : List RBOp → Nat
  | [] => 0
  | .writeOp _ :: rest => rbRequested rest
  | .readOp n :: rest => n + rbRequested rest

/-- Validity of an operation sequence against a capacity and a current
pending byte count: each write fits in the free capacity and each read
requests at most what is available. -/
def rbOpsValid (capacity : Nat) : Nat → List RBOp → Bool
  | _, [] => true
  | pending, .writeOp c :: rest =>
    decide (c.length ≤ capacity - pending) &&
      rbOpsValid capacity (pending + c.length) rest
  | pending, .readOp n :: rest =>
    decide (n ≤ pending) && rbOpsValid capacity (pending - n) rest

/-- Representation invariant of a ring buffer holding the pending byte
queue `q`: the stored bytes sit at `readPos + i (mod capacity)` and
`writePos` is `readPos + availableBytes (mod capacity)`. -/
def RBInv (rb : RingBuffer) (q : List Nat) : Prop :=
  0 < rb.capacity ∧
  rb.availableBytes = q.length ∧
  q.length ≤ rb.capacity ∧
  rb.readPos < rb.capacity ∧
  rb.writePos = (rb.readPos + rb.availableBytes) % rb.capacity ∧
  ∀ i < q.length, rb.buffer ((rb.readPos + i) % rb.capacity) = q.getD i 0

/-! ## buffer-pool.ts : BufferPool -/

/-- State of a `BufferPool` (buffer-pool.ts): a map from byte size to the
stack of released buffers of that size (`Uint8Array`s as `List Nat`, the
most recently pushed buffer first), and the per-size retention limit. -/
structure BufferPool where
  pool : Nat → List (List Nat)
  maxPoolSize : Nat

/-- A freshly constructed, empty pool. -/
def BufferPool.mk' (maxPoolSize : Nat) : BufferPool := ⟨fun _ => [], maxPoolSize⟩

/-- Embedding of `BufferPool.acquire`: pop a pooled buffer of the requested
size and zero-fill it (`buffer.fill(0)` keeps the buffer's own length), or
allocate a fresh zeroed buffer when none is pooled. -/
def BufferPool.acquire (bp : BufferPool) (size : Nat) : List Nat × BufferPool :=
  match bp.pool size with
  | [] => (List.replicate size 0, bp)
  | b :: rest =>
    (List.replicate b.length 0, ⟨Function.update bp.pool size rest, bp.maxPoolSize⟩)

/-- Embedding of `BufferPool.release`: push the buffer onto the stack keyed
by its own length, unless that stack is already at `maxPoolSize`. -/
def BufferPool.release (bp : BufferPool) (buffer : List Nat) : BufferPool :=
  let size := buffer.length
  if (bp.pool size).length < bp.maxPoolSize then
    ⟨Function.update bp.pool size (buffer :: bp.pool size), bp.maxPoolSize⟩
  else bp

/-- A client operation on the buffer pool. -/
inductive PoolOp where
  | acquireOp (size : Nat)
  | releaseOp (buffer : List Nat)

/-- Run a sequence of pool operations, keeping only the final pool state. -/
def runPoolOps (bp : BufferPool) : List PoolOp → BufferPool
  | [] => bp
  | .acquireOp n :: rest => runPoolOps (bp.acquire n).2 rest
  | .releaseOp b :: rest => runPoolOps (bp.release b) rest

/-- Invariant of every reachable pool: each stack holds only buffers whose
length equals its key (release keys a buffer by its own length). -/
def PoolInv (bp : BufferPool) : Prop :=
  ∀ k b, b ∈ bp.pool k → b.length = k

/-! ## Concrete fixtures used by witnesses and counterexamples -/

/-- Oracle reporting no scene change on any frame pair. -/
def meZero : MEOracle := fun _ _ _ _ _ _ => 0

/-- Oracle reporting a scene change on every frame pair. -/
def meOne : MEOracle := fun _ _ _ _ _ _ => 1

/-- A valid 16×16 frame, number 0 at 0 seconds. -/
def frameA : RawFrame := ⟨List.replicate 256 1, 16, 16, 16, 0, 0⟩

/-- A valid 32×32 frame, number 1 at 1 second: a mid-stream resolution
change after `frameA`. -/
def frameB : RawFrame := ⟨List.replicate 1024 1, 32, 32, 32, 1, 1⟩

/-- A valid 16×16 frame, number 1 at 1 second. -/
def frameA1 : RawFrame := ⟨List.replicate 256 2, 16, 16, 16, 1, 1⟩

/-- Options with low sensitivity and otherwise default settings. -/
def optsLow : DetectionOptions := ⟨.low, ⟨3000, 150⟩, .medium⟩

/-- Options exactly as defaulted by the `SceneDetector` constructor. -/
def optsMedium : DetectionOptions := ⟨.medium, ⟨2000, 90⟩, .medium⟩

/-- Options with high sensitivity and otherwise default settings. -/
def optsHigh : DetectionOptions := ⟨.high, ⟨1000, 50⟩, .medium⟩

/-- Metadata of a small 16×16, 24 fps test clip. -/
def metaFix : VideoMetadata := ⟨100, 100 / 24, 24, 16, 16⟩

/-- An invalid frame: its plane is empty. -/
def frameEmpty : RawFrame := ⟨[], 16, 16, 16, 0, 0⟩

/-- Decidable equality on `Except`, used to evaluate the embedded driver on
concrete fixtures. -/
instance {e a : Type} [DecidableEq e] [DecidableEq a] : DecidableEq (Except e a) :=
  fun x y =>
    match x, y with
    | .error u, .error v => decidable_of_iff (u = v) (by simp)
    | .error _, .ok _ => isFalse (by simp)
    | .ok _, .error _ => isFalse (by simp)
    | .ok u, .ok v => decidable_of_iff (u = v) (by simp)

/-! ## Theorems -/

/-- C7: `calculateFcode` maps the search-range option to fcode as follows,
for every width W and height H: small → 2, medium → 4, large → 6; and for
auto, W·H ≤ 720·480 → 3, otherwise W·H ≤ 1920·1080 → 4, otherwise 5 (so a
704×480 input selects 3, a 1280×720 input selects 4, and a 3840×2160 input
selects 5). -/
theorem calculateFcode_spec :
    (∀ width height : Int,
      calculateFcode .small width height = 2 ∧
      calculateFcode .medium width height = 4 ∧
      calculateFcode .large width height = 6 ∧
      (width * height ≤ 720 * 480 → calculateFcode .auto width height = 3) ∧
      (720 * 480 < width * height → width * height ≤ 1920 * 1080 →
        calculateFcode .auto width height = 4) ∧
      (1920 * 1080 < width * height → calculateFcode .auto width height = 5)) ∧
    calculateFcode .auto 704 480 = 3 ∧
    calculateFcode .auto 1280 720 = 4 ∧
    calculateFcode .auto 3840 2160 = 5 := by
  refine ⟨fun width height => ⟨rfl, rfl, rfl, ?_, ?_, ?_⟩, by decide, by decide, by decide⟩
  · intro h
    simp only [calculateFcode, if_pos h]
  · intro h1 h2
    simp only [calculateFcode, if_neg (not_le.mpr h1), if_pos h2]
  · intro h
    have h1 : ¬ width * height ≤ 720 * 480 :=
      not_le.mpr (lt_trans (show (720 * 480 : Int) < 1920 * 1080 by decide) h)
    simp only [calculateFcode, if_neg h1, if_neg (not_le.mpr h)]

/-- Witness for C7: the auto branches of `calculateFcode` at the concrete
resolutions named by the claim. -/
theorem calculateFcode_spec_witness :
    calculateFcode .small 704 480 = 2 ∧
    calculateFcode .auto 704 480 = 3 ∧
    calculateFcode .auto 3840 2160 = 5 :=
  ⟨(calculateFcode_spec.1 704 480).1,
   (calculateFcode_spec.1 704 480).2.2.2.1 (by decide),
   (calculateFcode_spec.1 3840 2160).2.2.2.2.2 (by decide)⟩

/-- C1 (refuting evidence): `calculateThresholds` does map low/medium/high to
(3000, 150), (2000, 90) and (1000, 50), but the driver never feeds the
sensitivity setting (or any thresholds) into the per-frame verdict: the WASM
call takes only the planes, dimensions, `intraCount` and `fcode`, so the
`scenes` output of `detect` is identical for any two option values sharing a
search range, whatever their sensitivities — it can never differ between
sensitivity settings. -/
theorem detect_ignores_sensitivity :
    (calculateThresholds .low = ⟨3000, 150⟩ ∧
     calculateThresholds .medium = ⟨2000, 90⟩ ∧
     calculateThresholds .high = ⟨1000, 50⟩) ∧
    ∀ (me : MEOracle) (o1 o2 : DetectionOptions) (metadata : VideoMetadata)
      (frames : List RawFrame), o1.searchRange = o2.searchRange →
      detect me o1 metadata frames = detect me o2 metadata frames := by
  refine ⟨⟨rfl, rfl, rfl⟩, ?_⟩
  intro me o1 o2 metadata frames h
  unfold detect detectFrom
  rw [h]

/-- Witness for C1: low and high sensitivity produce the same output on a
concrete two-frame run. -/
theorem detect_ignores_sensitivity_witness :
    optsLow.searchRange = optsHigh.searchRange ∧
    detect meOne optsLow metaFix [frameA, frameA1] =
      detect meOne optsHigh metaFix [frameA, frameA1] :=
  ⟨rfl, detect_ignores_sensitivity.2 meOne optsLow optsHigh metaFix
    [frameA, frameA1] rfl⟩

/-- C8: `detect` is deterministic in its scenes output: with the WASM
analysis a pure function of its arguments, two runs of the driver from a
fresh detector state on the same frames and options produce equal scene
lists. -/
theorem detect_deterministic :
    ∀ (me : MEOracle) (options : DetectionOptions) (metadata : VideoMetadata)
      (frames : List RawFrame) (s1 s2 : DetectionState),
      s1 = freshState → s2 = freshState →
      detectFrom me options metadata s1 frames =
        detectFrom me options metadata s2 frames := by
  intro me options metadata frames s1 s2 h1 h2
  rw [h1, h2]

/-- Witness for C8: two fresh-state runs on a concrete two-frame sequence
agree. -/
theorem detect_deterministic_witness :
    detectFrom meOne optsMedium metaFix freshState [frameA, frameA1] =
      detectFrom meOne optsMedium metaFix freshState [frameA, frameA1] :=
  detect_deterministic meOne optsMedium metaFix [frameA, frameA1]
    freshState freshState rfl rfl

/-- Characterization of a successful `validateFrame`: exactly the frames
with both dimensions in [1, 8192] and a plane of at least width·height
bytes pass. -/
theorem validateFrame_ok_iff (frame : RawFrame) :
    validateFrame frame = .ok () ↔
      1 ≤ frame.width ∧ frame.width ≤ 8192 ∧ 1 ≤ frame.height ∧
      frame.height ≤ 8192 ∧ frame.width * frame.height ≤ (frame.data.length : Int) := by
  unfold validateFrame validateFrameDimensions
  split_ifs with h1 h2 h3 h4
  · simp only [reduceCtorEq, false_iff]
    rintro ⟨hw, -, hh, -, hsize⟩
    have hpos : (0 : Int) < frame.width * frame.height :=
      mul_pos (by omega) (by omega)
    omega
  · simp only [reduceCtorEq, false_iff]
    rintro ⟨-, -, -, -, hsize⟩
    omega
  · simp only [reduceCtorEq, false_iff]
    rintro ⟨hw, -, hh, -, -⟩
    omega
  · simp only [reduceCtorEq, false_iff]
    rintro ⟨-, hw, -, hh, -⟩
    omega
  · simp only [true_iff]
    push_neg at h3 h4
    exact ⟨by omega, by omega, by omega, by omega, by omega⟩

/-- Every frame consumed by a successful frame loop passed validation. -/
theorem detectGo_ok_valid (me : MEOracle) (fcode : Int) :
    ∀ (frames : List RawFrame) (prev : Option RawFrame) (intraCount : Nat)
      (scenes : List SceneInfo),
      detectGo me fcode prev intraCount frames = .ok scenes →
      ∀ f ∈ frames, validateFrame f = .ok () := by
  intro frames
  induction frames with
  | nil => intro prev n scenes h f hf; simp at hf
  | cons frame rest ih =>
    intro prev n scenes h f hf
    cases hv : validateFrame frame with
    | error e =>
      simp only [detectGo, hv] at h
      exact Except.noConfusion h
    | ok u =>
      simp only [detectGo, hv] at h
      rcases List.mem_cons.mp hf with rfl | hf
      · cases u; exact hv
      · cases prev with
        | none => exact ih _ _ _ h f hf
        | some p =>
          cases hd : detectSceneChange me p frame n fcode with
          | error e =>
            simp only [hd] at h
            exact Except.noConfusion h
          | ok b =>
            simp only [hd] at h
            cases b with
            | true =>
              cases hrec : detectGo me fcode (some frame) 1 rest with
              | error e =>
                simp only [hrec] at h
                exact Except.noConfusion h
              | ok s => exact ih _ _ _ hrec f hf
            | false => exact ih _ _ _ h f hf

/-- C6: `validateFrame` raises an error exactly when the frame is invalid,
i.e. its data is empty, its data length is below width·height, or a
dimension is non-positive or above 8192; any such error makes the whole
`detect` run fail (the driver catches nothing), while every frame with
enough data and both dimensions in [1, 8192] validates normally. -/
theorem validateFrame_spec :
    (∀ frame : RawFrame,
      ((∃ e, validateFrame frame = .error e) ↔
        (frame.data.length = 0 ∨
         (frame.data.length : Int) < frame.width * frame.height ∨
         frame.width ≤ 0 ∨ frame.height ≤ 0 ∨
         8192 < frame.width ∨ 8192 < frame.height)) ∧
      (frame.width * frame.height ≤ (frame.data.length : Int) →
        1 ≤ frame.width → frame.width ≤ 8192 →
        1 ≤ frame.height → frame.height ≤ 8192 →
        validateFrame frame = .ok ())) ∧
    ∀ (me : MEOracle) (options : DetectionOptions) (metadata : VideoMetadata)
      (frames : List RawFrame) (f : RawFrame) (scenes : List SceneInfo),
      f ∈ frames → (∃ e, validateFrame f = .error e) →
      detect me options metadata frames ≠ .ok scenes := by
  have herr : ∀ frame : RawFrame, (∃ e, validateFrame frame = .error e) ↔
      ¬ validateFrame frame = .ok () := by
    intro frame
    constructor
    · rintro ⟨e, he⟩ hok
      rw [hok] at he
      exact absurd he (by simp)
    · intro hne
      cases hv : validateFrame frame with
      | error e => exact ⟨e, rfl⟩
      | ok u => cases u; exact absurd hv hne
  refine ⟨fun frame => ⟨?_, ?_⟩, ?_⟩
  · rw [herr frame, validateFrame_ok_iff]
    constructor
    · intro hne
      by_contra hcon
      push_neg at hcon
      obtain ⟨hlen, hsize, hw, hh, hw8, hh8⟩ := hcon
      exact hne ⟨by omega, by omega, by omega, by omega, by omega⟩
    · rintro hbad ⟨hw, hw8, hh, hh8, hsize⟩
      have hpos : (0 : Int) < frame.width * frame.height :=
        mul_pos (by omega) (by omega)
      omega
  · intro hsize hw hw8 hh hh8
    exact (validateFrame_ok_iff frame).mpr ⟨hw, hw8, hh, hh8, hsize⟩
  · intro me options metadata frames f scenes hmem hex hdet
    unfold detect detectFrom at hdet
    cases hgo : detectGo me (calculateFcode options.searchRange metadata.width
        metadata.height) freshState.prevFrame freshState.intraCount frames with
    | error e =>
      simp only [hgo] at hdet
      exact Except.noConfusion hdet
    | ok s =>
      have hval := detectGo_ok_valid me _ frames _ _ _ hgo f hmem
      exact (herr f).mp hex hval

/-- Witness for C6: an empty-plane frame is rejected and aborts `detect`,
while a well-formed 16×16 frame validates. -/
theorem validateFrame_spec_witness :
    (∃ e, validateFrame frameEmpty = .error e) ∧
    validateFrame frameA = .ok () ∧
    detect meZero optsMedium metaFix [frameEmpty] ≠ .ok [seedScene] := by
  have h1 : (∃ e, validateFrame frameEmpty = .error e) :=
    (validateFrame_spec.1 frameEmpty).1.mpr (Or.inl (by decide))
  have h2 : validateFrame frameA = .ok () :=
    (validateFrame_spec.1 frameA).2 (by decide) (by decide) (by decide)
      (by decide) (by decide)
  exact ⟨h1, h2, validateFrame_spec.2 meZero optsMedium metaFix [frameEmpty]
    frameEmpty [seedScene] (by simp) h1⟩

/-- On a successful frame loop, the verdict evaluations are exactly the
adjacent frame pairs, starting from the given previous frame. -/
theorem detectCallsGo_zip (me : MEOracle) (fcode : Int) :
    ∀ (frames : List RawFrame) (p : RawFrame) (intraCount : Nat)
      (scenes : List SceneInfo),
      detectGo me fcode (some p) intraCount frames = .ok scenes →
      detectCallsGo me fcode (some p) intraCount frames =
        (p :: frames).zip frames := by
  intro frames
  induction frames with
  | nil => intro p n scenes h; rfl
  | cons frame rest ih =>
    intro p n scenes h
    cases hv : validateFrame frame with
    | error e =>
      simp only [detectGo, hv] at h
      exact Except.noConfusion h
    | ok u =>
      simp only [detectGo, hv] at h
      simp only [detectCallsGo, hv]
      cases hd : detectSceneChange me p frame n fcode with
      | error e =>
        simp only [hd] at h
        exact Except.noConfusion h
      | ok b =>
        simp only [hd] at h
        cases b with
        | true =>
          cases hrec : detectGo me fcode (some frame) 1 rest with
          | error e =>
            simp only [hrec] at h
            exact Except.noConfusion h
          | ok s =>
            simp only [List.zip_cons_cons]
            exact congrArg _ (ih frame 1 s hrec)
        | false =>
          simp only [List.zip_cons_cons]
          exact congrArg _ (ih frame (n + 1) scenes h)

/-- C4: for every run of `detect` that returns, the scenes list is non-empty
and starts with the seed entry frame 0 / timestamp 0 / timecode
00:00:00.000, which is placed before any frame is processed; the verdict is
evaluated exactly on the adjacent frame pairs, so never on the first
delivered frame (the frame with no predecessor). -/
theorem detect_seed_first :
    ∀ (me : MEOracle) (options : DetectionOptions) (metadata : VideoMetadata)
      (frames : List RawFrame) (scenes : List SceneInfo),
      detect me options metadata frames = .ok scenes →
      scenes ≠ [] ∧ scenes.head? = some seedScene ∧
      detectCalls me options metadata frames = frames.zip frames.tail := by
  intro me options metadata frames scenes h
  unfold detect detectFrom at h
  cases hgo : detectGo me (calculateFcode options.searchRange metadata.width
      metadata.height) freshState.prevFrame freshState.intraCount frames with
  | error e =>
    simp only [hgo] at h
    exact Except.noConfusion h
  | ok s =>
    simp only [hgo] at h
    have hs : seedScene :: s = scenes := by
      injection h
    subst hs
    refine ⟨by simp, by simp, ?_⟩
    unfold detectCalls
    cases frames with
    | nil => rfl
    | cons f rest =>
      cases hv : validateFrame f with
      | error e =>
        simp only [detectGo, hv, show freshState.prevFrame = none from rfl] at hgo
        exact Except.noConfusion hgo
      | ok u =>
        simp only [detectGo, hv, show freshState.prevFrame = none from rfl] at hgo
        simp only [detectCallsGo, hv, show freshState.prevFrame = none from rfl]
        exact detectCallsGo_zip me _ rest f freshState.intraCount s hgo

/-- Witness for C4: a concrete successful single-frame run. -/
theorem detect_seed_first_witness :
    ([seedScene] : List SceneInfo) ≠ [] ∧
    ([seedScene] : List SceneInfo).head? = some seedScene ∧
    detectCalls meZero optsMedium metaFix [frameA] = [frameA].zip [frameA].tail :=
  detect_seed_first meZero optsMedium metaFix [frameA] [seedScene] (by decide)

/-- Scenes emitted by a successful frame loop carry strictly increasing
frame numbers, all above the previous frame's number. -/
theorem detectGo_chain (me : MEOracle) (fcode : Int) :
    ∀ (frames : List RawFrame) (p : RawFrame) (intraCount : Nat)
      (scenes : List SceneInfo),
      List.Chain' (fun a b => a.frameNumber < b.frameNumber) (p :: frames) →
      detectGo me fcode (some p) intraCount frames = .ok scenes →
      List.Chain' (fun a b : SceneInfo => a.frameNumber < b.frameNumber) scenes ∧
      ∀ s ∈ scenes, p.frameNumber < s.frameNumber := by
  intro frames
  induction frames with
  | nil =>
    intro p n scenes hchain h
    simp only [detectGo] at h
    have hs : ([] : List SceneInfo) = scenes := by injection h
    subst hs
    exact ⟨List.chain'_nil, by simp⟩
  | cons frame rest ih =>
    intro p n scenes hchain h
    rw [List.chain'_cons] at hchain
    obtain ⟨hpf, hchain'⟩ := hchain
    cases hv : validateFrame frame with
    | error e =>
      simp only [detectGo, hv] at h
      exact Except.noConfusion h
    | ok u =>
      simp only [detectGo, hv] at h
      cases hd : detectSceneChange me p frame n fcode with
      | error e =>
        simp only [hd] at h
        exact Except.noConfusion h
      | ok b =>
        simp only [hd] at h
        cases b with
        | true =>
          cases hrec : detectGo me fcode (some frame) 1 rest with
          | error e =>
            simp only [hrec] at h
            exact Except.noConfusion h
          | ok s =>
            obtain ⟨hc, hgt⟩ := ih frame 1 s hchain' hrec
            simp only [hrec] at h
            have hs : (⟨frame.frameNumber, frame.pts,
                formatTimecode frame.pts⟩ : SceneInfo) :: s = scenes := by
              injection h
            subst hs
            constructor
            · rw [List.chain'_cons']
              exact ⟨fun y hy => hgt y (List.mem_of_mem_head? hy), hc⟩
            · intro s' hs'
              rcases List.mem_cons.mp hs' with rfl | hs'
              · exact hpf
              · exact lt_trans hpf (hgt s' hs')
        | false =>
          obtain ⟨hc, hgt⟩ := ih frame (n + 1) scenes hchain' h
          exact ⟨hc, fun s' hs' => lt_trans hpf (hgt s' hs')⟩

/-- C5: when the decoder delivers frames with strictly increasing frame
numbers starting at 0, the scenes list of a successful `detect` run has
strictly increasing frame numbers, and every non-seed cut has frame number
at least 1. -/
theorem detect_scenes_increasing :
    ∀ (me : MEOracle) (options : DetectionOptions) (metadata : VideoMetadata)
      (frames : List RawFrame) (scenes : List SceneInfo),
      List.Chain' (fun a b => a.frameNumber < b.frameNumber) frames →
      (∀ f, frames.head? = some f → f.frameNumber = 0) →
      detect me options metadata frames = .ok scenes →
      List.Chain' (fun a b : SceneInfo => a.frameNumber < b.frameNumber) scenes ∧
      ∀ s ∈ scenes.tail, 1 ≤ s.frameNumber := by
  intro me options metadata frames scenes hchain hzero h
  unfold detect detectFrom at h
  cases hgo : detectGo me (calculateFcode options.searchRange metadata.width
      metadata.height) freshState.prevFrame freshState.intraCount frames with
  | error e =>
    simp only [hgo] at h
    exact Except.noConfusion h
  | ok s =>
    simp only [hgo] at h
    have hs : seedScene :: s = scenes := by injection h
    subst hs
    cases frames with
    | nil =>
      simp only [detectGo, show freshState.prevFrame = none from rfl] at hgo
      have hnil : ([] : List SceneInfo) = s := by injection hgo
      subst hnil
      exact ⟨List.chain'_singleton _, by simp⟩
    | cons f rest =>
      cases hv : validateFrame f with
      | error e =>
        simp only [detectGo, hv, show freshState.prevFrame = none from rfl] at hgo
        exact Except.noConfusion hgo
      | ok u =>
        simp only [detectGo, hv, show freshState.prevFrame = none from rfl] at hgo
        obtain ⟨hc, hgt⟩ :=
          detectGo_chain me _ rest f freshState.intraCount s hchain hgo
        have hf0 : f.frameNumber = 0 := hzero f rfl
        constructor
        · rw [List.chain'_cons']
          refine ⟨fun y hy => ?_, hc⟩
          have := hgt y (List.mem_of_mem_head? hy)
          simp only [seedScene]
          omega
        · intro s' hs'
          have := hgt s' hs'
          omega

/-- Witness for C5: a concrete two-frame run with no cuts. -/
theorem detect_scenes_increasing_witness :
    List.Chain' (fun a b : SceneInfo => a.frameNumber < b.frameNumber)
      [seedScene] ∧
    ∀ s ∈ ([seedScene] : List SceneInfo).tail, 1 ≤ s.frameNumber :=
  detect_scenes_increasing meZero optsMedium metaFix [frameA, frameA1]
    [seedScene]
    (List.chain'_cons.mpr ⟨by decide, List.chain'_singleton _⟩)
    (fun f hf => by cases hf; rfl)
    (by decide)

/-- C2 counterexample: on a concrete mid-stream resolution change (a valid
16×16 frame followed by a valid 32×32 frame) detection fails outright with
the bridge's dimension-mismatch error, instead of reallocating and
continuing as the claim states. -/
theorem detect_resolution_change_cex :
    detect meZero optsMedium metaFix [frameA, frameB] =
      .error "Frame dimensions must match" := by decide

/-- In a frame loop whose frames all validate, any adjacent dimension
mismatch (relative to the running previous frame) aborts the run with the
bridge's error. -/
theorem detectGo_mismatch (me : MEOracle) (fcode : Int) :
    ∀ (frames : List RawFrame) (p : RawFrame) (intraCount : Nat),
      (∀ f ∈ frames, validateFrame f = .ok ()) →
      ¬ List.Chain' (fun a b : RawFrame =>
          a.width = b.width ∧ a.height = b.height) (p :: frames) →
      detectGo me fcode (some p) intraCount frames =
        .error "Frame dimensions must match" := by
  intro frames
  induction frames with
  | nil =>
    intro p n _ hchain
    exact absurd (List.chain'_singleton p) hchain
  | cons frame rest ih =>
    intro p n hval hchain
    rw [List.chain'_cons] at hchain
    have hv : validateFrame frame = .ok () := hval frame (by simp)
    by_cases hsame : p.width = frame.width ∧ p.height = frame.height
    · have hchain' : ¬ List.Chain' (fun a b : RawFrame =>
          a.width = b.width ∧ a.height = b.height) (frame :: rest) :=
        fun hc => hchain ⟨hsame, hc⟩
      have hd : detectSceneChange me p frame n fcode =
          .ok (decide (me p.data frame.data p.width p.height n fcode = 1)) := by
        unfold detectSceneChange
        rw [if_neg]
        push_neg
        exact hsame
      simp only [detectGo, hv, hd]
      have hrec1 := ih frame 1 (fun g hg => hval g (by simp [hg])) hchain'
      have hrecn := ih frame (n + 1) (fun g hg => hval g (by simp [hg])) hchain'
      cases hb : decide (me p.data frame.data p.width p.height n fcode = 1) with
      | true => rw [hrec1]
      | false => rw [hrecn]
    · have hd : detectSceneChange me p frame n fcode =
          .error "Frame dimensions must match" := by
        unfold detectSceneChange
        rw [if_pos]
        rw [Decidable.not_and_iff_or_not] at hsame
        rcases hsame with hw | hh
        · exact Or.inl hw
        · exact Or.inr hh
      simp only [detectGo, hv, hd]

/-- C2 amended: when a frame arrives mid-stream whose width or height
differs from the previous frame's, detection fails: on any frame list whose
frames each validate but whose dimensions are not all pairwise-adjacent
equal, `detect` rejects with the uncaught bridge error "Frame dimensions
must match" — the driver does not reallocate, re-bootstrap, or continue. -/
theorem detect_resolution_change_aborts :
    ∀ (me : MEOracle) (options : DetectionOptions) (metadata : VideoMetadata)
      (frames : List RawFrame),
      (∀ f ∈ frames, validateFrame f = .ok ()) →
      ¬ List.Chain' (fun a b : RawFrame =>
          a.width = b.width ∧ a.height = b.height) frames →
      detect me options metadata frames = .error "Frame dimensions must match" := by
  intro me options metadata frames hval hchain
  unfold detect detectFrom
  cases frames with
  | nil => exact absurd List.chain'_nil hchain
  | cons f rest =>
    have hv : validateFrame f = .ok () := hval f (by simp)
    simp only [detectGo, hv, show freshState.prevFrame = none from rfl]
    rw [detectGo_mismatch me _ rest f freshState.intraCount
      (fun g hg => hval g (by simp [hg])) hchain]

/-- Witness for C2's amended claim: the general abort theorem applied to the
concrete resolution-change fixture, under a cut-everywhere oracle. -/
theorem detect_resolution_change_aborts_witness :
    detect meOne optsMedium metaFix [frameA, frameB] =
      .error "Frame dimensions must match" :=
  detect_resolution_change_aborts meOne optsMedium metaFix [frameA, frameB]
    (by decide) (by
      intro hc
      rw [List.chain'_cons] at hc
      exact absurd hc.1.1 (by decide))

/-- A freshly constructed pool satisfies the length-keyed invariant. -/
theorem poolInv_mk (maxPoolSize : Nat) : PoolInv (BufferPool.mk' maxPoolSize) := by
  intro k b hb
  simp [BufferPool.mk'] at hb

/-- Acquiring preserves the pool invariant and always hands out a zeroed
buffer of exactly the requested size. -/
theorem poolInv_acquire (bp : BufferPool) (size : Nat) (h : PoolInv bp) :
    PoolInv (bp.acquire size).2 ∧ (bp.acquire size).1 = List.replicate size 0 := by
  unfold BufferPool.acquire
  cases hp : bp.pool size with
  | nil => exact ⟨h, rfl⟩
  | cons b rest =>
    refine ⟨?_, ?_⟩
    · intro k b' hb'
      have hb2 : b' ∈ Function.update bp.pool size rest k := hb'
      by_cases hk : k = size
      · subst hk
        rw [Function.update_same] at hb2
        exact h _ b' (hp ▸ List.mem_cons_of_mem b hb2)
      · rw [Function.update_noteq hk] at hb2
        exact h k b' hb2
    · show List.replicate b.length 0 = List.replicate size 0
      rw [h size b (hp ▸ List.mem_cons_self b rest)]

/-- Releasing preserves the pool invariant: a buffer is pooled under its own
length. -/
theorem poolInv_release (bp : BufferPool) (buffer : List Nat) (h : PoolInv bp) :
    PoolInv (bp.release buffer) := by
  intro k b hb
  have hb' : b ∈ (if (bp.pool buffer.length).length < bp.maxPoolSize then
      (⟨Function.update bp.pool buffer.length (buffer :: bp.pool buffer.length),
        bp.maxPoolSize⟩ : BufferPool)
    else bp).pool k := hb
  split_ifs at hb' with hlen
  · have hb2 : b ∈ Function.update bp.pool buffer.length
        (buffer :: bp.pool buffer.length) k := hb'
    by_cases hk : k = buffer.length
    · subst hk
      rw [Function.update_same] at hb2
      rcases List.mem_cons.mp hb2 with rfl | hb2
      · rfl
      · exact h _ b hb2
    · rw [Function.update_noteq hk] at hb2
      exact h k b hb2
  · exact h k b hb'

/-- Every pool reachable from a fresh pool satisfies the invariant. -/
theorem poolInv_run (ops : List PoolOp) :
    ∀ bp, PoolInv bp → PoolInv (runPoolOps bp ops) := by
  induction ops with
  | nil => exact fun bp h => h
  | cons op rest ih =>
    intro bp h
    cases op with
    | acquireOp n => exact ih _ (poolInv_acquire bp n h).1
    | releaseOp b => exact ih _ (poolInv_release bp b h)

/-- C10: after any sequence of acquires and releases on a fresh pool,
`BufferPool.acquire size` returns a buffer of length exactly `size` whose
bytes are all zero — both when it allocates fresh and when it reuses a
released buffer (released buffers are pooled keyed by their own length and
zero-filled before being handed out again). -/
theorem bufferPool_acquire_zeroed :
    ∀ (maxPoolSize : Nat) (ops : List PoolOp) (size : Nat),
      ((runPoolOps (BufferPool.mk' maxPoolSize) ops).acquire size).1 =
        List.replicate size 0 :=
  fun maxPoolSize ops size =>
    (poolInv_acquire _ size (poolInv_run ops _ (poolInv_mk maxPoolSize))).2

/-- Bound used throughout the padding proof: a width is at most its
macroblock-aligned extension. -/
theorem le_16_mb_width (w : Nat) : w ≤ 16 * mb_width w := by
  unfold mb_width
  omega

/-- Height version of the macroblock-alignment bound. -/
theorem le_16_mb_height (h : Nat) : h ≤ 16 * mb_height h := by
  unfold mb_height
  omega

/-- A positive width spans at least one macroblock column. -/
theorem one_le_mb_width (w : Nat) (hw : 1 ≤ w) : 1 ≤ mb_width w := by
  unfold mb_width
  omega

/-- A positive height spans at least one macroblock row. -/
theorem one_le_mb_height (h : Nat) (hh : 1 ≤ h) : 1 ≤ mb_height h := by
  unfold mb_height
  omega

/-- After the central copy and right-edge passes, every pixel of a source
row (over the full aligned column range) holds the column-clamped source
value. -/
theorem pad_right_val (src : Nat → Nat) (width height y x : Nat)
    (hW : 1 ≤ width) (hy : 64 ≤ y) (hy2 : y < 64 + height) (hx : 64 ≤ x)
    (hx2 : x < 64 + 16 * mb_width width) :
    pad_right src width height (pad_copy src width height pad_clear) y x =
      src ((y - 64) * width + min (x - 64) (width - 1)) := by
  have hwm := le_16_mb_width width
  simp only [pad_right, pad_copy, pad_clear]
  split_ifs with h1 h2
  · exact congrArg src (by omega)
  · exact congrArg src (by omega)
  · exact absurd hx2 (by omega)

/-- After the bottom-edge pass, every pixel of the aligned interior holds
the row- and column-clamped source value. -/
theorem pad_bottom_val (src : Nat → Nat) (width height y x : Nat)
    (hW : 1 ≤ width) (hH : 1 ≤ height) (hy : 64 ≤ y)
    (hy2 : y < 64 + 16 * mb_height height) (hx : 64 ≤ x)
    (hx2 : x < 64 + 16 * mb_width width) :
    pad_bottom width height
        (pad_right src width height (pad_copy src width height pad_clear)) y x =
      src (min (y - 64) (height - 1) * width + min (x - 64) (width - 1)) := by
  have hhm := le_16_mb_height height
  simp only [pad_bottom]
  split_ifs with h1
  · rw [pad_right_val src width height (64 + height - 1) x hW (by omega)
      (by omega) hx hx2]
    have hA : 64 + height - 1 - 64 = min (y - 64) (height - 1) := by omega
    rw [hA]
  · rw [pad_right_val src width height y x hW hy (by omega) hx hx2]
    have hA : y - 64 = min (y - 64) (height - 1) := by omega
    conv_lhs => rw [hA]

/-- After the top/bottom border pass, every pixel in the aligned column
range of any row holds the clamped source value. -/
theorem pad_vert_val (src : Nat → Nat) (width height y x : Nat)
    (hW : 1 ≤ width) (hH : 1 ≤ height) (hy2 : y < edged_height height)
    (hx : 64 ≤ x) (hx2 : x < 64 + 16 * mb_width width) :
    pad_vert height (pad_bottom width height
        (pad_right src width height (pad_copy src width height pad_clear))) y x =
      src (min (y - 64) (height - 1) * width + min (x - 64) (width - 1)) := by
  have hhm := le_16_mb_height height
  have hh1 := one_le_mb_height height hH
  have he : edged_height height = 16 * mb_height height + 2 * 64 := rfl
  simp only [pad_vert]
  split_ifs with h1 h2
  · rw [pad_bottom_val src width height 64 x hW hH (by omega) (by omega) hx hx2]
    have hA : min (64 - 64) (height - 1) = min (y - 64) (height - 1) := by omega
    rw [hA]
  · rw [pad_bottom_val src width height (edged_height height - 1 - 64) x hW hH
      (by omega) (by omega) hx hx2]
    have hA : min (edged_height height - 1 - 64 - 64) (height - 1) =
        min (y - 64) (height - 1) := by omega
    rw [hA]
  · rw [pad_bottom_val src width height y x hW hH (by omega) (by omega) hx hx2]

/-- C3: for every width W ≥ 1, height H ≥ 1 and source plane, `pad_frame`
fills the EW×EH destination so that the byte at `(x, y)` equals
`src[min(y-64, H-1) * W + min(x-64, W-1)]` (the truncated subtraction
`y - 64` is `max(y-64, 0)` on integers) for all `x < EW`, `y < EH`; in
particular a constant source plane pads to a constant plane of the same
value. -/
theorem pad_frame_spec :
    ∀ (src : Nat → Nat) (width height : Nat), 1 ≤ width → 1 ≤ height →
      (∀ x y, x < edged_width width → y < edged_height height →
        pad_frame src width height y x =
          src (min (y - 64) (height - 1) * width + min (x - 64) (width - 1))) ∧
      ∀ v, (∀ i, src i = v) → ∀ x y, x < edged_width width →
        y < edged_height height → pad_frame src width height y x = v := by
  intro src width height hW hH
  have hmain : ∀ x y, x < edged_width width → y < edged_height height →
      pad_frame src width height y x =
        src (min (y - 64) (height - 1) * width + min (x - 64) (width - 1)) := by
    intro x y hx hy
    have hwm := le_16_mb_width width
    have hw1 := one_le_mb_width width hW
    have hew : edged_width width = 16 * mb_width width + 2 * 64 := rfl
    unfold pad_frame
    simp only [pad_horiz]
    split_ifs with h1 h2
    · rw [pad_vert_val src width height y 64 hW hH hy (by omega) (by omega)]
      have hB : min (64 - 64) (width - 1) = min (x - 64) (width - 1) := by omega
      rw [hB]
    · rw [pad_vert_val src width height y (64 + 16 * mb_width width - 1) hW hH
        hy (by omega) (by omega)]
      have hB : min (64 + 16 * mb_width width - 1 - 64) (width - 1) =
          min (x - 64) (width - 1) := by omega
      rw [hB]
    · exact pad_vert_val src width height y x hW hH hy (by omega) (by omega)
  refine ⟨hmain, fun v hv x y hx hy => ?_⟩
  rw [hmain x y hx hy, hv]

/-- Witness for C3: padding a constant 1×1 plane, evaluated at a corner and
at an interior point of the 144×144 destination. -/
theorem pad_frame_spec_witness :
    pad_frame (fun _ => 7) 1 1 0 0 = 7 ∧ pad_frame (fun _ => 7) 1 1 120 100 = 7 :=
  ⟨(pad_frame_spec (fun _ => 7) 1 1 (by decide) (by decide)).2 7 (fun _ => rfl)
      0 0 (by decide) (by decide),
   (pad_frame_spec (fun _ => 7) 1 1 (by decide) (by decide)).2 7 (fun _ => rfl)
      100 120 (by decide) (by decide)⟩

/-- Arithmetic on wrapped positions: one subtraction for values in the
second capacity window. -/
theorem rb_mod_sub (cap a : Nat) (h1 : cap ≤ a) (h2 : a < cap + cap) :
    a % cap = a - cap := by
  rw [Nat.mod_eq_sub_mod h1, Nat.mod_eq_of_lt (by omega)]

/-- A fitting write succeeds and extends the represented byte queue by the
chunk, preserving the capacity. -/
theorem rb_write_ok (rb : RingBuffer) (q chunk : List Nat)
    (hinv : RBInv rb q) (hfit : chunk.length ≤ rb.capacity - rb.availableBytes) :
    ∃ rb', rb.write chunk = .ok rb' ∧ RBInv rb' (q ++ chunk) ∧
      rb'.capacity = rb.capacity := by
  obtain ⟨hcap, hav, hle, hrp, hwp, hbytes⟩ := hinv
  have hwplt : rb.writePos < rb.capacity := by
    rw [hwp]; exact Nat.mod_lt _ hcap
  have hcs : chunk.length ≤ rb.capacity - q.length := by omega
  have hwpj : ∀ j, (rb.writePos + j) % rb.capacity =
      (rb.readPos + (q.length + j)) % rb.capacity := by
    intro j
    rw [hwp, hav, Nat.mod_add_mod, Nat.add_assoc]
  have hcancel : ∀ i j, i < rb.capacity → q.length + j < rb.capacity →
      (rb.readPos + i) % rb.capacity = (rb.writePos + j) % rb.capacity →
      i = q.length + j := by
    intro i j hi hj heq
    rw [hwpj j] at heq
    have h4 : i % rb.capacity = (q.length + j) % rb.capacity :=
      Nat.ModEq.add_left_cancel' rb.readPos heq
    rw [Nat.mod_eq_of_lt hi, Nat.mod_eq_of_lt hj] at h4
    exact h4
  simp only [RingBuffer.write, if_neg (not_lt.mpr hfit)]
  by_cases hcase : chunk.length ≤ rb.capacity - rb.writePos
  · rw [if_pos hcase]
    refine ⟨_, rfl, ⟨hcap, by simp [hav], by simp; omega, hrp, ?_, ?_⟩, rfl⟩
    · dsimp only
      rw [hav, ← hwpj chunk.length]
      split_ifs with h
      · rw [show rb.writePos + chunk.length = rb.capacity by omega, Nat.mod_self]
      · rw [Nat.mod_eq_of_lt (by omega)]
    · intro i hi
      rw [List.length_append] at hi
      dsimp only
      by_cases hiq : i < q.length
      · have hplt : (rb.readPos + i) % rb.capacity < rb.capacity :=
          Nat.mod_lt _ hcap
        have hnot : ¬ (rb.writePos ≤ (rb.readPos + i) % rb.capacity ∧
            (rb.readPos + i) % rb.capacity < rb.writePos + chunk.length) := by
          rintro ⟨ha, hb⟩
          have hj : (rb.readPos + i) % rb.capacity =
              (rb.writePos + ((rb.readPos + i) % rb.capacity - rb.writePos)) %
                rb.capacity := by
            rw [show rb.writePos + ((rb.readPos + i) % rb.capacity - rb.writePos)
              = (rb.readPos + i) % rb.capacity by omega, Nat.mod_eq_of_lt hplt]
          have h5 := hcancel i ((rb.readPos + i) % rb.capacity - rb.writePos)
            (by omega) (by omega) hj
          omega
        rw [if_neg hnot, hbytes i hiq]
        exact (List.getD_append q chunk 0 i hiq).symm
      · have hp : (rb.readPos + i) % rb.capacity =
            (rb.writePos + (i - q.length)) % rb.capacity := by
          rw [hwpj]
          congr 1
          omega
        have hlt : rb.writePos + (i - q.length) < rb.capacity := by omega
        rw [hp, Nat.mod_eq_of_lt hlt, if_pos ⟨by omega, by omega⟩,
          show rb.writePos + (i - q.length) - rb.writePos = i - q.length by omega]
        exact (List.getD_append_right q chunk 0 i (by omega)).symm
  · rw [if_neg hcase]
    have hes : rb.capacity - rb.writePos < chunk.length := by omega
    refine ⟨_, rfl, ⟨hcap, by simp [hav], by simp; omega, hrp, ?_, ?_⟩, rfl⟩
    · dsimp only
      rw [hav, ← hwpj chunk.length,
        rb_mod_sub rb.capacity (rb.writePos + chunk.length) (by omega) (by omega),
        if_neg (by omega)]
      omega
    · intro i hi
      rw [List.length_append] at hi
      dsimp only
      by_cases hiq : i < q.length
      · have hplt : (rb.readPos + i) % rb.capacity < rb.capacity :=
          Nat.mod_lt _ hcap
        have hnot1 : ¬ ((rb.readPos + i) % rb.capacity <
            chunk.length - (rb.capacity - rb.writePos)) := by
          intro hlt1
          have hj : (rb.readPos + i) % rb.capacity =
              (rb.writePos + ((rb.capacity - rb.writePos) +
                (rb.readPos + i) % rb.capacity)) % rb.capacity := by
            rw [show rb.writePos + ((rb.capacity - rb.writePos) +
              (rb.readPos + i) % rb.capacity) =
              rb.capacity + (rb.readPos + i) % rb.capacity by omega,
              Nat.add_mod_left, Nat.mod_eq_of_lt hplt]
          have h5 := hcancel i ((rb.capacity - rb.writePos) +
            (rb.readPos + i) % rb.capacity) (by omega) (by omega) hj
          omega
        have hnot2 : ¬ (rb.writePos ≤ (rb.readPos + i) % rb.capacity ∧
            (rb.readPos + i) % rb.capacity <
              rb.writePos + (rb.capacity - rb.writePos)) := by
          rintro ⟨ha, hb⟩
          have hj : (rb.readPos + i) % rb.capacity =
              (rb.writePos + ((rb.readPos + i) % rb.capacity - rb.writePos)) %
                rb.capacity := by
            rw [show rb.writePos + ((rb.readPos + i) % rb.capacity - rb.writePos)
              = (rb.readPos + i) % rb.capacity by omega, Nat.mod_eq_of_lt hplt]
          have h5 := hcancel i ((rb.readPos + i) % rb.capacity - rb.writePos)
            (by omega) (by omega) hj
          omega
        rw [if_neg hnot1, if_neg hnot2, hbytes i hiq]
        exact (List.getD_append q chunk 0 i hiq).symm
      · have hj : i - q.length < chunk.length := by omega
        have hp : (rb.readPos + i) % rb.capacity =
            (rb.writePos + (i - q.length)) % rb.capacity := by
          rw [hwpj]
          congr 1
          omega
        by_cases hsub : i - q.length < rb.capacity - rb.writePos
        · have hplt2 : rb.writePos + (i - q.length) < rb.capacity := by omega
          rw [hp, Nat.mod_eq_of_lt hplt2, if_neg (by omega),
            if_pos ⟨by omega, by omega⟩,
            show rb.writePos + (i - q.length) - rb.writePos = i - q.length by omega]
          exact (List.getD_append_right q chunk 0 i (by omega)).symm
        · have hge : rb.capacity ≤ rb.writePos + (i - q.length) := by omega
          have hlt2 : rb.writePos + (i - q.length) < rb.capacity + rb.capacity := by
            omega
          rw [hp, rb_mod_sub rb.capacity _ hge hlt2, if_pos (by omega),
            show (rb.capacity - rb.writePos) +
              (rb.writePos + (i - q.length) - rb.capacity) = i - q.length by omega]
          exact (List.getD_append_right q chunk 0 i (by omega)).symm

/-- A read within the available byte count succeeds, returns exactly the
front of the represented queue and leaves the rest represented, preserving
the capacity. -/
theorem rb_read_ok (rb : RingBuffer) (q : List Nat) (n : Nat)
    (hinv : RBInv rb q) (hn : n ≤ rb.availableBytes) :
    ∃ rb', rb.read n = .ok (q.take n, rb') ∧ RBInv rb' (q.drop n) ∧
      rb'.capacity = rb.capacity := by
  obtain ⟨hcap, hav, hle, hrp, hwp, hbytes⟩ := hinv
  have hnq : n ≤ q.length := by omega
  simp only [RingBuffer.read, if_neg (not_lt.mpr hn)]
  by_cases hcase : n ≤ rb.capacity - rb.readPos
  · rw [if_pos hcase]
    have hres : ((List.range n).map fun i => rb.buffer (rb.readPos + i)) =
        q.take n := by
      apply List.ext_getElem
      · simp
        omega
      · intro i h1 h2
        simp only [List.length_map, List.length_range] at h1
        simp only [List.getElem_map, List.getElem_range, List.getElem_take]
        have hb := hbytes i (by omega)
        rw [Nat.mod_eq_of_lt (by omega)] at hb
        rw [hb, List.getD_eq_getElem _ _ (by omega)]
    have hrpn : (if rb.capacity ≤ rb.readPos + n then 0 else rb.readPos + n) =
        (rb.readPos + n) % rb.capacity := by
      split_ifs with h
      · rw [show rb.readPos + n = rb.capacity by omega, Nat.mod_self]
      · rw [Nat.mod_eq_of_lt (by omega)]
    refine ⟨⟨rb.buffer, rb.writePos,
      if rb.capacity ≤ rb.readPos + n then 0 else rb.readPos + n,
      rb.availableBytes - n, rb.capacity⟩,
      by rw [hres], ⟨hcap, ?_, ?_, ?_, ?_, ?_⟩, rfl⟩
    · simp [hav]
    · simp
      omega
    · dsimp only
      rw [hrpn]
      exact Nat.mod_lt _ hcap
    · dsimp only
      rw [hrpn, Nat.mod_add_mod,
        show rb.readPos + n + (rb.availableBytes - n) =
          rb.readPos + rb.availableBytes by omega]
      exact hwp
    · intro i hi
      rw [List.length_drop] at hi
      dsimp only
      rw [hrpn, Nat.mod_add_mod,
        show rb.readPos + n + i = rb.readPos + (n + i) by omega,
        hbytes (n + i) (by omega),
        List.getD_eq_getElem _ _ (by omega),
        List.getD_eq_getElem _ _ (by rw [List.length_drop]; omega),
        List.getElem_drop]
  · rw [if_neg hcase]
    have hres : (((List.range (rb.capacity - rb.readPos)).map
          fun i => rb.buffer (rb.readPos + i)) ++
        ((List.range (n - (rb.capacity - rb.readPos))).map
          fun i => rb.buffer i)) = q.take n := by
      apply List.ext_getElem
      · simp
        omega
      · intro i h1 h2
        simp only [List.length_append, List.length_map, List.length_range] at h1
        rw [List.getElem_take]
        by_cases hie : i < rb.capacity - rb.readPos
        · rw [List.getElem_append_left (by simpa using hie)]
          simp only [List.getElem_map, List.getElem_range]
          have hb := hbytes i (by omega)
          rw [Nat.mod_eq_of_lt (by omega)] at hb
          rw [hb, List.getD_eq_getElem _ _ (by omega)]
        · rw [List.getElem_append_right (by simpa using hie)]
          simp only [List.length_map, List.length_range, List.getElem_map,
            List.getElem_range]
          have hb := hbytes i (by omega)
          rw [rb_mod_sub rb.capacity (rb.readPos + i) (by omega) (by omega),
            show rb.readPos + i - rb.capacity =
              i - (rb.capacity - rb.readPos) by omega] at hb
          rw [hb, List.getD_eq_getElem _ _ (by omega)]
    have hrpn : n - (rb.capacity - rb.readPos) = (rb.readPos + n) % rb.capacity := by
      rw [rb_mod_sub rb.capacity (rb.readPos + n) (by omega) (by omega)]
      omega
    refine ⟨⟨rb.buffer, rb.writePos,
      if rb.capacity ≤ n - (rb.capacity - rb.readPos) then 0
        else n - (rb.capacity - rb.readPos),
      rb.availableBytes - n, rb.capacity⟩,
      by rw [hres], ⟨hcap, ?_, ?_, ?_, ?_, ?_⟩, rfl⟩
    · simp [hav]
    · simp
      omega
    · dsimp only
      rw [if_neg (by omega), hrpn]
      exact Nat.mod_lt _ hcap
    · dsimp only
      rw [if_neg (by omega), hrpn, Nat.mod_add_mod,
        show rb.readPos + n + (rb.availableBytes - n) =
          rb.readPos + rb.availableBytes by omega]
      exact hwp
    · intro i hi
      rw [List.length_drop] at hi
      dsimp only
      rw [if_neg (by omega), hrpn, Nat.mod_add_mod,
        show rb.readPos + n + i = rb.readPos + (n + i) by omega,
        hbytes (n + i) (by omega),
        List.getD_eq_getElem _ _ (by omega),
        List.getD_eq_getElem _ _ (by rw [List.length_drop]; omega),
        List.getElem_drop]

/-- Running a valid operation sequence from a represented buffer succeeds,
and the bytes read so far plus the still-pending queue always equal the
bytes written so far. -/
theorem rb_run :
    ∀ (ops : List RBOp) (rb : RingBuffer) (q : List Nat),
      RBInv rb q → rbOpsValid rb.capacity q.length ops = true →
      ∃ out rb' q', runRBOps rb ops = .ok (out, rb') ∧ RBInv rb' q' ∧
        q ++ rbWritten ops = out ++ q' ∧ out.length = rbRequested ops := by
  intro ops
  induction ops with
  | nil =>
    intro rb q hinv _
    exact ⟨[], rb, q, rfl, hinv, by simp [rbWritten], rfl⟩
  | cons op rest ih =>
    intro rb q hinv hv
    cases op with
    | writeOp c =>
      simp only [rbOpsValid, Bool.and_eq_true, decide_eq_true_eq] at hv
      obtain ⟨h1, h2⟩ := hv
      have hfit : c.length ≤ rb.capacity - rb.availableBytes := by
        rw [hinv.2.1]
        exact h1
      obtain ⟨rb', hw, hinv', hcap'⟩ := rb_write_ok rb q c hinv hfit
      obtain ⟨out, rb'', q'', hrun, hinv'', heq, hlen⟩ := ih rb' (q ++ c) hinv'
        (by rw [hcap', List.length_append]; exact h2)
      refine ⟨out, rb'', q'', ?_, hinv'', ?_, ?_⟩
      · simp only [runRBOps, hw]
        exact hrun
      · rw [show rbWritten (RBOp.writeOp c :: rest) = c ++ rbWritten rest from rfl,
          ← List.append_assoc]
        exact heq
      · rw [show rbRequested (RBOp.writeOp c :: rest) = rbRequested rest from rfl]
        exact hlen
    | readOp n =>
      simp only [rbOpsValid, Bool.and_eq_true, decide_eq_true_eq] at hv
      obtain ⟨h1, h2⟩ := hv
      have hn : n ≤ rb.availableBytes := by
        rw [hinv.2.1]
        exact h1
      obtain ⟨rb', hr, hinv', hcap'⟩ := rb_read_ok rb q n hinv hn
      obtain ⟨out, rb'', q'', hrun, hinv'', heq, hlen⟩ := ih rb' (q.drop n) hinv'
        (by rw [hcap', List.length_drop]; exact h2)
      refine ⟨q.take n ++ out, rb'', q'', ?_, hinv'', ?_, ?_⟩
      · simp only [runRBOps, hr, hrun]
      · rw [show rbWritten (RBOp.readOp n :: rest) = rbWritten rest from rfl,
          List.append_assoc, ← heq, ← List.append_assoc, List.take_append_drop]
      · rw [show rbRequested (RBOp.readOp n :: rest) = n + rbRequested rest from rfl,
          List.length_append, hlen, List.length_take]
        omega

/-- C9: the decoder's RingBuffer is FIFO-correct.  For every operation
sequence on a fresh buffer in which each written chunk fits in the free
capacity and each read requests at most the available byte count, the run
succeeds and the concatenation of the bytes returned by the reads is
exactly the prefix, of length equal to the total bytes requested, of the
concatenation of the written chunks; an oversized write throws the overflow
error and an oversized read throws the underflow error (in the source both
throws happen before any state mutation). -/
theorem ringBuffer_fifo :
    (∀ (size : Nat) (initial : Nat → Nat) (ops : List RBOp),
      0 < size → rbOpsValid size 0 ops = true →
      ∃ out rb', runRBOps (RingBuffer.mk' size initial) ops = .ok (out, rb') ∧
        out = (rbWritten ops).take out.length ∧
        out.length = rbRequested ops) ∧
    (∀ (rb : RingBuffer) (chunk : List Nat),
      rb.capacity - rb.availableBytes < chunk.length →
      rb.write chunk =
        .error "RingBuffer overflow: chunk too large for available space") ∧
    (∀ (rb : RingBuffer) (n : Nat), rb.availableBytes < n →
      rb.read n = .error "RingBuffer underflow: not enough data available") := by
  refine ⟨?_, ?_, ?_⟩
  · intro size initial ops hsize hv
    have hinv : RBInv (RingBuffer.mk' size initial) [] := by
      refine ⟨hsize, rfl, by simp, hsize, ?_, ?_⟩
      · simp [RingBuffer.mk']
      · intro i hi
        simp at hi
    obtain ⟨out, rb', q', hrun, hinv', heq, hlen⟩ :=
      rb_run ops (RingBuffer.mk' size initial) [] hinv hv
    refine ⟨out, rb', hrun, ?_, hlen⟩
    rw [List.nil_append] at heq
    rw [heq, List.take_left]
  · intro rb chunk h
    simp only [RingBuffer.write, if_pos h]
  · intro rb n h
    simp only [RingBuffer.read, if_pos h]

/-- Witness for C9: a four-operation run on a 4-byte buffer that wraps both
the write and the read positions, and a concrete underflow. -/
theorem ringBuffer_fifo_witness :
    (∃ out rb', runRBOps (RingBuffer.mk' 4 fun _ => 9)
        [RBOp.writeOp [1, 2, 3], RBOp.readOp 2, RBOp.writeOp [4, 5],
          RBOp.readOp 3] = .ok (out, rb') ∧
      out = (rbWritten [RBOp.writeOp [1, 2, 3], RBOp.readOp 2,
        RBOp.writeOp [4, 5], RBOp.readOp 3]).take out.length ∧
      out.length = rbRequested [RBOp.writeOp [1, 2, 3], RBOp.readOp 2,
        RBOp.writeOp [4, 5], RBOp.readOp 3]) ∧
    (RingBuffer.mk' 4 fun _ => 9).read 1 =
      .error "RingBuffer underflow: not enough data available" :=
  ⟨ringBuffer_fifo.1 4 (fun _ => 9) [RBOp.writeOp [1, 2, 3], RBOp.readOp 2,
      RBOp.writeOp [4, 5], RBOp.readOp 3] (by decide) (by decide),
   ringBuffer_fifo.2.2 (RingBuffer.mk' 4 fun _ => 9) 1 (by decide)⟩

end Scenecut
